import Mathlib

/-
Verification of the TexNote note-hierarchy model: flat note records with
parent references, tree materialization, mutation handlers
(create / update / delete-with-descendants / toggle-expand), the import
gateway, and the dual-write (local cache + optional remote)
storage adapter.  All definitions are shallow embeddings of the
TypeScript source (src/App.tsx, src/services/storage.ts); general
recursion over untrusted parent graphs is embedded with an explicit
fuel parameter where fuel exhaustion models non-termination of the
original recursion.
-/

namespace Texnote

/-- A flat note record (src/types.ts `Note`).  `parentId = none` marks a
root.  Timestamps are `Date.now()` values, modelled as `Nat`. -/
structure Note where
  id : String
  parentId : Option String
  title : String
  content : String
  createdAt : Nat
  updatedAt : Nat
  isExpanded : Bool
deriving DecidableEq

def idA : String := "a"
def idB : String := "b"
def idOne : String := "1"
def idTwo : String := "2"
def idThree : String := "3"
def idNine : String := "9"
def idZZ : String := "zz"
def titleT : String := "T"

/-- Storage configuration (src/services/storage.ts `StorageConfig`).
Empty strings model the absent/falsy values of the source. -/
structure StorageConfig where
  apiUrl : String
  apiKey : String
deriving DecidableEq

/-- A node of the materialized tree (src/types.ts `NoteTreeItem`): the
record together with its depth and recursively materialized children. -/
inductive NoteTreeItem where
  | mk : Note → Nat → List NoteTreeItem → NoteTreeItem

def NoteTreeItem.note : NoteTreeItem → Note
  | .mk n _ _ => n

def NoteTreeItem.depth : NoteTreeItem → Nat
  | .mk _ d _ => d

def NoteTreeItem.children : NoteTreeItem → List NoteTreeItem
  | .mk _ _ c => c

/-- Sequence a list of optional results, failing if any element fails
(the shape of `children.flatMap`/`map` over fallible recursive calls). -/
def mapOpt (f : α → Option β) : List α → Option (List β)
  | [] => some []
  | a :: l =>
    match f a, mapOpt f l with
    | some b, some bs => some (b :: bs)
    | _, _ => none

/-- Concatenate a list of lists (the `flatMap` flattening step). -/
def joinAll : List (List α) → List α
  | [] => []
  | l :: ls => l ++ joinAll ls

/-- Insert into a list kept in descending `createdAt` order. -/
def insertDesc (x : NoteTreeItem) : List NoteTreeItem → List NoteTreeItem
  | [] => [x]
  | y :: l =>
    if y.note.createdAt ≤ x.note.createdAt then x :: y :: l
    else y :: insertDesc x l

/-- Sort tree items by `createdAt` descending, newest first
(the `.sort((a, b) => b.createdAt - a.createdAt)` step). -/
def sortDesc : List NoteTreeItem → List NoteTreeItem
  | [] => []
  | x :: l => insertDesc x (sortDesc l)

/-- Fuel-bounded embedding of `buildTree` (src/App.tsx): select the
records whose `parentId` equals the current parent, map each to a tree
item with recursively built children, and sort newest-first.  `none`
models divergence of the unbounded source recursion. -/
def buildTreeF (notes : List Note) : Nat → Option String → Nat → Option (List NoteTreeItem)
  | 0, _, _ => none
  | fuel + 1, parentId, depth =>
    (mapOpt
      (fun note =>
        (buildTreeF notes fuel (some note.id) (depth + 1)).map
          (fun cs => NoteTreeItem.mk note depth cs))
      (notes.filter (fun n => n.parentId == parentId))).map sortDesc

/-- Top-level tree materialization: `buildTree(null)` with enough fuel
for any acyclic collection. -/
def materialize (notes : List Note) : Option (List NoteTreeItem) :=
  buildTreeF notes (notes.length + 1) none 0

mutual

/-- Collect a tree item together with all items below it. -/
def flattenOne : NoteTreeItem → List NoteTreeItem
  | .mk n d cs => NoteTreeItem.mk n d cs :: flattenList cs

/-- Collect every item appearing at any level of a materialized forest. -/
def flattenList : List NoteTreeItem → List NoteTreeItem
  | [] => []
  | t :: ts => flattenOne t ++ flattenList ts

end

/-- `Partial<Note>` as passed to `handleUpdateNote`: each field may be
absent.  A present `parentId` field may itself carry `null`. -/
structure PartialNote where
  id : Option String := none
  parentId : Option (Option String) := none
  title : Option String := none
  content : Option String := none
  createdAt : Option Nat := none
  updatedAt : Option Nat := none
  isExpanded : Option Bool := none
deriving DecidableEq

/-- The spread `{ ...note, ...updates, updatedAt: Date.now() }`: present
fields of the partial override the record, and `updatedAt` is always
rewritten to `now` last. -/
def mergeNote (n : Note) (u : PartialNote) (now : Nat) : Note :=
  { id := u.id.getD n.id
    parentId := u.parentId.getD n.parentId
    title := u.title.getD n.title
    content := u.content.getD n.content
    createdAt := u.createdAt.getD n.createdAt
    updatedAt := now
    isExpanded := u.isExpanded.getD n.isExpanded }

/-- `handleUpdateNote` (src/App.tsx): map over the collection, merging
the partial into every record whose id matches. -/
def handleUpdateNote (notes : List Note) (id : String) (u : PartialNote) (now : Nat) : List Note :=
  notes.map (fun note => if note.id = id then mergeNote note u now else note)

/-- `handleToggleExpand` (src/App.tsx): flip `isExpanded` on the
matching record. -/
def handleToggleExpand (notes : List Note) (id : String) : List Note :=
  notes.map (fun n => if n.id = id then { n with isExpanded := !n.isExpanded } else n)

/-- `handleCreateNote` (src/App.tsx): prepend a fresh record, then — when
a truthy `parentId` was given — force the parent's `isExpanded` to true.
Returns the new collection and the newly selected id. -/
def handleCreateNote (notes : List Note) (parentId : Option String) (newId : String) (now : Nat) : List Note × String :=
  let newNote : Note :=
    { id := newId, parentId := parentId, title := "", content := ""
      createdAt := now, updatedAt := now, isExpanded := true }
  let l1 := newNote :: notes
  let l2 :=
    match parentId with
    | some p =>
      if p = "" then l1
      else l1.map (fun n => if n.id = p then { n with isExpanded := true } else n)
    | none => l1
  (l2, newId)

/-- Fuel-bounded embedding of `getDescendants` (src/App.tsx
`handleDeleteNote`): the root id followed by the flattened recursive
descendants of every record whose `parentId` equals the root.  `none`
models divergence of the unbounded source recursion. -/
def getDescendantsF (notes : List Note) : Nat → String → Option (List String)
  | 0, _ => none
  | fuel + 1, rootId =>
    (mapOpt (fun c => getDescendantsF notes fuel c.id)
        (notes.filter (fun n => n.parentId == some rootId))).map
      (fun ls => rootId :: joinAll ls)

/-- `handleDeleteNote` (src/App.tsx): compute the descendant closure,
drop every record whose id lies in it, and clear the selection when the
(truthy) selected id was removed. -/
def handleDeleteNote (notes : List Note) (sel : Option String) (id : String) (fuel : Nat) :
    Option (List Note × Option String) :=
  (getDescendantsF notes fuel id).map (fun closure =>
    (notes.filter (fun n => !(closure.contains n.id)),
     match sel with
     | some s =>
       if s = "" then some s
       else if closure.contains s then none else some s
     | none => none))

/-! ## Storage adapter (src/services/storage.ts) -/

def methodGET : String := "GET"
def methodPOST : String := "POST"
def hdrCT : String := "Content-Type"
def hdrCTV : String := "application/json"
def hdrAuth : String := "Authorization"
def bearerStr : String := "Bearer "
def netFailMsg : String := "network failure"
def backendErrStr : String := "Backend error: "
def notArrayMsg : String := "Backend response is not an array of notes"

/-- An HTTP request as issued by the adapter.  `body` is the serialized
notes array when present. -/
structure HttpRequest where
  url : String
  method : String
  headers : List (String × String)
  body : Option (List Note)
deriving DecidableEq

/-- The headers built by both `load` and `save`: `Content-Type` always,
plus `Authorization: Bearer <key>` when a truthy key is configured. -/
def buildHeaders (apiKey : String) : List (String × String) :=
  if apiKey = "" then [(hdrCT, hdrCTV)]
  else [(hdrCT, hdrCTV), (hdrAuth, bearerStr ++ apiKey)]

/-- Decoded shape of a remote response body: a JSON array of notes, or
anything else (`Array.isArray` fails — including envelope objects). -/
inductive Body where
  | arr : List Note → Body
  | notArr : Body
deriving DecidableEq

/-- Environment outcome of the remote GET during `load`. -/
inductive LoadOutcome where
  | netError : LoadOutcome
  | httpError : Nat → LoadOutcome
  | body : Body → LoadOutcome
deriving DecidableEq

/-- Result of `storage.load`: the returned value (or thrown error), the
local cache afterwards, and the remote request issued, if any. -/
structure LoadResult where
  result : Except String (Option (List Note))
  cache : Option (List Note)
  request : Option HttpRequest

/-- `storage.load` (src/services/storage.ts): with a truthy `apiUrl`,
GET the endpoint; any failure (network, non-ok status, non-array body)
is rethrown to the caller and the local cache is left untouched; an
array body is returned and also refreshed into the cache.  With no
`apiUrl`, return the parsed cache (or null). -/
def storageLoad (config : StorageConfig) (outcome : LoadOutcome) (cache0 : Option (List Note)) :
    LoadResult :=
  if config.apiUrl = "" then
    { result := Except.ok cache0, cache := cache0, request := none }
  else
    let req : HttpRequest :=
      { url := config.apiUrl, method := methodGET
        headers := buildHeaders config.apiKey, body := none }
    match outcome with
    | .netError =>
      { result := Except.error netFailMsg, cache := cache0, request := some req }
    | .httpError code =>
      { result := Except.error (backendErrStr ++ toString code)
        cache := cache0, request := some req }
    | .body .notArr =>
      { result := Except.error notArrayMsg, cache := cache0, request := some req }
    | .body (.arr data) =>
      { result := Except.ok (some data), cache := some data, request := some req }

/-- Observable steps of `storage.save`, in execution order. -/
inductive SaveEvent where
  | localWrite : List Note → SaveEvent
  | remotePost : HttpRequest → SaveEvent
deriving DecidableEq

/-- Environment outcome of the remote POST during `save`. -/
inductive SaveOutcome where
  | netError : SaveOutcome
  | resp : Bool → SaveOutcome
deriving DecidableEq

/-- Result of `storage.save`: local cache afterwards, the ordered
side-effect trace, and whether the call returned without throwing. -/
structure SaveResult where
  cache : Option (List Note)
  events : List SaveEvent
  ok : Bool
deriving DecidableEq

/-- `storage.save` (src/services/storage.ts): always write the full
collection to the local cache first; then, with a truthy `apiUrl`, POST
the collection and throw on a non-ok response. -/
def storageSave (notes : List Note) (config : StorageConfig) (outcome : SaveOutcome) :
    SaveResult :=
  if config.apiUrl = "" then
    { cache := some notes, events := [SaveEvent.localWrite notes], ok := true }
  else
    let req : HttpRequest :=
      { url := config.apiUrl, method := methodPOST
        headers := buildHeaders config.apiKey, body := some notes }
    match outcome with
    | .netError =>
      { cache := some notes
        events := [SaveEvent.localWrite notes, SaveEvent.remotePost req], ok := false }
    | .resp respOk =>
      { cache := some notes
        events := [SaveEvent.localWrite notes, SaveEvent.remotePost req], ok := respOk }

/-- The remote request found in a save trace, if one was issued. -/
def remoteRequestOf (r : SaveResult) : Option HttpRequest :=
  (r.events.filterMap (fun e =>
    match e with
    | .remotePost req => some req
    | .localWrite _ => none)).head?

/-! ## Initial load (src/App.tsx `initLoad`) -/

def loadFailMsg : String := "Failed to load notes from backend. Using offline mode."

/-- The seeded demo collection (src/App.tsx `INITIAL_NOTES`), with the
module-load timestamp as a parameter and the long markdown bodies
abbreviated to their headings. -/
def INITIAL_NOTES (t : Nat) : List Note :=
  [ { id := "1", parentId := none, title := "Physics 101"
      content := "# Physics 101", createdAt := t, updatedAt := t, isExpanded := true },
    { id := "2", parentId := some idOne, title := "Quantum Mechanics"
      content := "# Quantum Mechanics", createdAt := t, updatedAt := t, isExpanded := false },
    { id := "3", parentId := none, title := "Math Notes"
      content := "# Calculus", createdAt := t, updatedAt := t, isExpanded := false } ]

/-- `initLoad` (src/App.tsx): call `storage.load`; on a loaded array
adopt it (selecting its first record when nothing was selected), on a
null result keep the seed and select its first record, and on a thrown
error keep the current in-memory notes and surface the offline warning.
Returns (notes, selection, errorMessage). -/
def initLoad (notes0 : List Note) (sel0 : Option String) (config : StorageConfig)
    (outcome : LoadOutcome) (cache0 : Option (List Note)) :
    List Note × Option String × Option String :=
  match (storageLoad config outcome cache0).result with
  | .ok (some loaded) =>
    let sel1 :=
      match loaded, sel0 with
      | l0 :: _, none => some l0.id
      | _, _ => sel0
    (loaded, sel1, none)
  | .ok none =>
    (notes0, (INITIAL_NOTES 0).head?.map Note.id, none)
  | .error _ =>
    (notes0, sel0, some loadFailMsg)

/-! ## Import gateway (src/App.tsx `handleImport`) -/

/-- Decoded shape of an imported file: unparseable JSON, a parsed
non-array value, or a parsed array of records. -/
inductive ImportInput where
  | parseError : ImportInput
  | notArray : ImportInput
  | array : List Note → ImportInput
deriving DecidableEq

/-- `handleImport` (src/App.tsx): accept only a non-empty array whose
first element has a truthy `id`; then, after confirmation, replace the
whole collection and select the first imported record.  Every rejected
shape alerts and leaves the state untouched.  Returns
(notes, selection, errorReported). -/
def handleImport (notes : List Note) (sel : Option String) (input : ImportInput)
    (confirmed : Bool) : List Note × Option String × Bool :=
  match input with
  | .parseError => (notes, sel, true)
  | .notArray => (notes, sel, true)
  | .array [] => (notes, sel, true)
  | .array (e :: rest) =>
    if e.id = "" then (notes, sel, true)
    else if confirmed then (e :: rest, some e.id, false)
    else (notes, sel, false)

/-! ## Reachability relations over the parent graph -/

/-- A descending chain in the parent graph: `Path notes pid l` holds
when `l` lists the ids of successive records, the first having
`parentId = pid` and each subsequent one being a child of its
predecessor.  These are exactly the call chains of the source's
recursive tree walks. -/
inductive Path (notes : List Note) : Option String → List String → Prop
  | nil : ∀ {pid}, Path notes pid []
  | cons : ∀ {pid rest} {n : Note}, n ∈ notes → n.parentId = pid →
      Path notes (some n.id) rest → Path notes pid (n.id :: rest)

/-- The parent graph has no descending cycle: no chain starting below an
id ever returns to that id. -/
def Acyclic (notes : List Note) : Prop :=
  ∀ x l, Path notes (some x) l → x ∉ l

/-- A rank function witnessing acyclicity: every child's id ranks
strictly below its parent's id. -/
def HasRank (notes : List Note) (μ : String → Nat) : Prop :=
  ∀ n ∈ notes, ∀ m ∈ notes, m.parentId = some n.id → μ m.id < μ n.id

/-- `ReachFrom notes pid r`: record `r` is reached by the tree walk
rooted at parent id `pid` — it is a direct child of `pid`, or reachable
from a direct child.  `ReachFrom notes none` is reachability from some
root. -/
inductive ReachFrom (notes : List Note) : Option String → Note → Prop
  | here : ∀ {pid} {r : Note}, r ∈ notes → r.parentId = pid → ReachFrom notes pid r
  | deeper : ∀ {pid} {c r : Note}, c ∈ notes → c.parentId = pid →
      ReachFrom notes (some c.id) r → ReachFrom notes pid r

/-- `InClosure notes root x`: id `x` lies in the descendant closure of
`root` — it is `root` itself, or lies in the closure of a direct child
of `root`. -/
inductive InClosure (notes : List Note) : String → String → Prop
  | refl : ∀ {root}, InClosure notes root root
  | step : ∀ {root x} {c : Note}, c ∈ notes → c.parentId = some root →
      InClosure notes c.id x → InClosure notes root x

/-! ## Concrete collections used in the theorems below -/

/-- A root record with id `a`. -/
def noteA : Note :=
  { id := "a", parentId := none, title := "A", content := ""
    createdAt := 10, updatedAt := 10, isExpanded := true }

/-- First record of the cyclic pair: `a` claims parent `b`. -/
def cycA : Note :=
  { id := "a", parentId := some idB, title := "A", content := ""
    createdAt := 1, updatedAt := 1, isExpanded := false }

/-- Second record of the cyclic pair: `b` claims parent `a`. -/
def cycB : Note :=
  { id := "b", parentId := some idA, title := "B", content := ""
    createdAt := 2, updatedAt := 2, isExpanded := false }

/-- A malformed two-record collection whose `parentId` edges form the
cycle a → b → a. -/
def cycNotes : List Note := [cycA, cycB]

def dn1 : Note :=
  { id := "1", parentId := none, title := "r", content := ""
    createdAt := 30, updatedAt := 30, isExpanded := true }

def dn2 : Note :=
  { id := "2", parentId := some idOne, title := "c", content := ""
    createdAt := 20, updatedAt := 20, isExpanded := false }

def dn3 : Note :=
  { id := "3", parentId := none, title := "s", content := ""
    createdAt := 10, updatedAt := 10, isExpanded := false }

/-- Root `1`, its child `2`, and an unrelated root `3`. -/
def exDel : List Note := [dn1, dn2, dn3]

/-- What deleting `1` from `exDel` leaves behind. -/
def exDelAfter : List Note := [dn3]

def orb9 : Note :=
  { id := "9", parentId := some idZZ, title := "o", content := ""
    createdAt := 10, updatedAt := 10, isExpanded := false }

/-- Root `1`, its child `2`, and an orphan `9` whose parent `zz` does
not exist in the collection. -/
def exOrb : List Note := [dn1, dn2, orb9]

/-- A rank function for `exOrb` and `exDel`: parents rank above
children. -/
def exMu : String → Nat := fun s => if s = "1" then 1 else 0

def mn1 : Note :=
  { id := "1", parentId := none, title := "r", content := ""
    createdAt := 10, updatedAt := 10, isExpanded := true }

def mn2 : Note :=
  { id := "2", parentId := some idOne, title := "c", content := ""
    createdAt := 5, updatedAt := 5, isExpanded := false }

/-- A two-record collection for the materialization witnesses. -/
def exM : List Note := [mn1, mn2]

/-- The materialized tree of `exM`: one root of depth 0 holding one
child of depth 1. -/
def exMTree : List NoteTreeItem :=
  [ NoteTreeItem.mk mn1 0 [ NoteTreeItem.mk mn2 1 [] ] ]

/-- A partial update carrying only an `id` field. -/
def uId : PartialNote := { id := some idB }

/-- A partial update carrying only a `title` field. -/
def uTitle : PartialNote := { title := some titleT }

/-- A record standing for previously cached user data. -/
def noteX : Note :=
  { id := "x", parentId := none, title := "Cached", content := "user data"
    createdAt := 7, updatedAt := 7, isExpanded := false }

/-- A remote-enabled configuration. -/
def cfgX : StorageConfig :=
  { apiUrl := "https://api.example.com/notes", apiKey := "k" }

/-- A configuration whose endpoint shape is the envelope-style provider
(JSONBin). -/
def cfgJB : StorageConfig :=
  { apiUrl := "https://api.jsonbin.io/v3/b/demo", apiKey := "k" }

/-- A configuration with the same key but an unrelated endpoint shape. -/
def cfgOther : StorageConfig :=
  { apiUrl := "https://notes.example.org/store", apiKey := "k" }

/-- The frame property `update(id, u)` must satisfy record-by-record:
non-matching records are untouched; a matching record keeps every field
the partial does not mention, takes every field it does mention, and
gets `updatedAt` rewritten to `now`, strictly above its old value. -/
def UpdateFrame (id : String) (u : PartialNote) (now : Nat) (old new : Note) : Prop :=
  (old.id ≠ id → new = old) ∧
  (old.id = id →
    new.updatedAt = now ∧ old.updatedAt < new.updatedAt ∧
    (u.id = none → new.id = old.id) ∧ (∀ v, u.id = some v → new.id = v) ∧
    (u.parentId = none → new.parentId = old.parentId) ∧
    (∀ v, u.parentId = some v → new.parentId = v) ∧
    (u.title = none → new.title = old.title) ∧ (∀ v, u.title = some v → new.title = v) ∧
    (u.content = none → new.content = old.content) ∧
    (∀ v, u.content = some v → new.content = v) ∧
    (u.createdAt = none → new.createdAt = old.createdAt) ∧
    (∀ v, u.createdAt = some v → new.createdAt = v) ∧
    (u.isExpanded = none → new.isExpanded = old.isExpanded) ∧
    (∀ v, u.isExpanded = some v → new.isExpanded = v))

/-! ## Helper lemmas -/

theorem mapOpt_isSome {f : α → Option β} {l : List α}
    (h : ∀ a ∈ l, (f a).isSome) : (mapOpt f l).isSome := by
  induction l with
  | nil => simp [mapOpt]
  | cons a l ih =>
    have ha := h a (by simp)
    have hl := ih (fun x hx => h x (by simp [hx]))
    rcases Option.isSome_iff_exists.mp ha with ⟨b, hb⟩
    rcases Option.isSome_iff_exists.mp hl with ⟨bs, hbs⟩
    simp [mapOpt, hb, hbs]

theorem mapOpt_mem_some {f : α → Option β} {l : List α} {bs : List β}
    (h : mapOpt f l = some bs) {b : β} (hb : b ∈ bs) :
    ∃ a ∈ l, f a = some b := by
  induction l generalizing bs with
  | nil => simp [mapOpt] at h; subst h; simp at hb
  | cons a l ih =>
    simp only [mapOpt] at h
    cases hfa : f a with
    | none => rw [hfa] at h; simp at h
    | some b0 =>
      rw [hfa] at h
      cases hml : mapOpt f l with
      | none => rw [hml] at h; simp at h
      | some bs0 =>
        rw [hml] at h
        simp only [Option.some.injEq] at h
        subst h
        rcases List.mem_cons.mp hb with hb | hb
        · exact ⟨a, by simp, by rw [hfa, hb]⟩
        · rcases ih hml hb with ⟨x, hx, hfx⟩
          exact ⟨x, by simp [hx], hfx⟩

theorem mapOpt_forall_some {f : α → Option β} {l : List α} {bs : List β}
    (h : mapOpt f l = some bs) {a : α} (ha : a ∈ l) :
    ∃ b ∈ bs, f a = some b := by
  induction l generalizing bs with
  | nil => simp at ha
  | cons x l ih =>
    simp only [mapOpt] at h
    cases hfx : f x with
    | none => rw [hfx] at h; simp at h
    | some b0 =>
      rw [hfx] at h
      cases hml : mapOpt f l with
      | none => rw [hml] at h; simp at h
      | some bs0 =>
        rw [hml] at h
        simp only [Option.some.injEq] at h
        subst h
        rcases List.mem_cons.mp ha with ha | ha
        · exact ⟨b0, by simp, by rw [ha, hfx]⟩
        · rcases ih hml ha with ⟨b, hb, hfb⟩
          exact ⟨b, by simp [hb], hfb⟩

theorem mem_joinAll {a : α} {ls : List (List α)} :
    a ∈ joinAll ls ↔ ∃ l ∈ ls, a ∈ l := by
  induction ls with
  | nil => simp [joinAll]
  | cons l ls ih => simp [joinAll, ih, List.mem_append, or_and_right, exists_or]

theorem mem_insertDesc {a x : NoteTreeItem} {l : List NoteTreeItem} :
    a ∈ insertDesc x l ↔ a = x ∨ a ∈ l := by
  induction l with
  | nil => simp [insertDesc]
  | cons y l ih =>
    by_cases h : y.note.createdAt ≤ x.note.createdAt
    · simp [insertDesc, h]
    · simp [insertDesc, h, ih]
      tauto

theorem mem_sortDesc {a : NoteTreeItem} {l : List NoteTreeItem} :
    a ∈ sortDesc l ↔ a ∈ l := by
  induction l with
  | nil => simp [sortDesc]
  | cons x l ih => simp [sortDesc, mem_insertDesc, ih]

theorem flattenOne_eq (t : NoteTreeItem) :
    flattenOne t = t :: flattenList t.children := by
  cases t
  rfl

theorem mem_flattenList {a : NoteTreeItem} {ts : List NoteTreeItem} :
    a ∈ flattenList ts ↔ ∃ t ∈ ts, a ∈ flattenOne t := by
  induction ts with
  | nil => simp [flattenList]
  | cons t ts ih =>
    simp [flattenList, List.mem_append, ih, or_and_right, exists_or]

theorem path_subset {notes : List Note} {pid : Option String} {l : List String}
    (h : Path notes pid l) : ∀ x ∈ l, x ∈ notes.map Note.id := by
  induction h with
  | nil => simp
  | cons hn hp _ ih =>
    intro x hx
    rcases List.mem_cons.mp hx with hx | hx
    · exact hx ▸ List.mem_map_of_mem Note.id hn
    · exact ih x hx

theorem path_nodup {notes : List Note} (hA : Acyclic notes) :
    ∀ {pid : Option String} {l : List String}, Path notes pid l → l.Nodup := by
  intro pid l h
  induction h with
  | nil => exact List.nodup_nil
  | cons hn hp hrest ih => exact List.nodup_cons.mpr ⟨hA _ _ hrest, ih⟩

theorem path_length_le {notes : List Note} (hA : Acyclic notes)
    {pid : Option String} {l : List String} (h : Path notes pid l) :
    l.length ≤ notes.length := by
  have := ((path_nodup hA h).subperm (fun x hx => path_subset h x hx)).length_le
  simpa using this

theorem hasRank_acyclic (notes : List Note) (μ : String → Nat)
    (hR : ∀ n ∈ notes, ∀ m ∈ notes, m.parentId = some n.id → μ m.id < μ n.id) :
    Acyclic notes := by
  have aux : ∀ {pid : Option String} {l : List String}, Path notes pid l →
      ∀ n ∈ notes, some n.id = pid → ∀ y ∈ l, μ y < μ n.id := by
    intro pid l h
    induction h with
    | nil => intro n _ _ y hy; simp at hy
    | cons hm hmp hrest ih =>
      intro n hn hpid y hy
      have hstep : μ _ < μ n.id := hR n hn _ hm (by rw [hmp, ← hpid])
      rcases List.mem_cons.mp hy with hy | hy
      · exact hy ▸ hstep
      · exact lt_trans (ih _ hm rfl y hy) hstep
  intro x l h hx
  by_cases hex : ∃ n ∈ notes, n.id = x
  · rcases hex with ⟨n, hn, hnx⟩
    have := aux h n hn (by rw [hnx]) x hx
    rw [hnx] at this
    exact absurd this (lt_irrefl _)
  · rcases List.mem_map.mp (path_subset h x hx) with ⟨n, hn, hnx⟩
    exact hex ⟨n, hn, hnx⟩

theorem filter_children_mem {notes : List Note} {pid : Option String} {c : Note} :
    c ∈ notes.filter (fun n => n.parentId == pid) ↔ c ∈ notes ∧ c.parentId = pid := by
  simp [List.mem_filter]

theorem contains_iff {l : List String} {a : String} : l.contains a = true ↔ a ∈ l :=
  List.elem_iff

theorem buildTreeF_isSome {notes : List Note} :
    ∀ (f : Nat) (pid : Option String) (d : Nat),
      (∀ l, Path notes pid l → l.length < f) →
      (buildTreeF notes f pid d).isSome := by
  intro f
  induction f with
  | zero =>
    intro pid d h
    exact absurd (h [] Path.nil) (by simp)
  | succ f ih =>
    intro pid d h
    have hall : ∀ c ∈ notes.filter (fun n => n.parentId == pid),
        ((buildTreeF notes f (some c.id) (d + 1)).map
          (fun cs => NoteTreeItem.mk c d cs)).isSome := by
      intro c hc
      rcases filter_children_mem.mp hc with ⟨hcn, hcp⟩
      have hsub : ∀ l, Path notes (some c.id) l → l.length < f := by
        intro l hl
        have := h (c.id :: l) (Path.cons hcn hcp hl)
        simpa [Nat.succ_lt_succ_iff] using this
      rcases Option.isSome_iff_exists.mp (ih (some c.id) (d + 1) hsub) with ⟨cs, hcs⟩
      simp [hcs]
    rcases Option.isSome_iff_exists.mp (mapOpt_isSome hall) with ⟨items, hitems⟩
    simp [buildTreeF, hitems]

theorem materialize_isSome {notes : List Note} (hA : Acyclic notes) :
    (materialize notes).isSome :=
  buildTreeF_isSome _ none 0 (fun _l hl => Nat.lt_succ_of_le (path_length_le hA hl))

theorem mem_buildTreeF {notes : List Note} :
    ∀ (f : Nat) (pid : Option String) (d : Nat) (ts : List NoteTreeItem),
      buildTreeF notes f pid d = some ts →
      ∀ r : Note, (∃ it ∈ flattenList ts, it.note = r) ↔ ReachFrom notes pid r := by
  intro f
  induction f with
  | zero =>
    intro pid d ts h
    simp [buildTreeF] at h
  | succ f ih =>
    intro pid d ts h r
    simp only [buildTreeF] at h
    cases hm : mapOpt
        (fun note => (buildTreeF notes f (some note.id) (d + 1)).map
          (fun cs => NoteTreeItem.mk note d cs))
        (notes.filter (fun n => n.parentId == pid)) with
    | none => rw [hm] at h; simp at h
    | some items =>
      rw [hm] at h
      simp only [Option.map_some', Option.some.injEq] at h
      subst h
      constructor
      · rintro ⟨it, hit, hnote⟩
        rcases mem_flattenList.mp hit with ⟨t, ht, hin⟩
        rcases mapOpt_mem_some hm (mem_sortDesc.mp ht) with ⟨c, hc, hgc⟩
        rcases filter_children_mem.mp hc with ⟨hcn, hcp⟩
        cases hb : buildTreeF notes f (some c.id) (d + 1) with
        | none => rw [hb] at hgc; simp at hgc
        | some cs =>
          rw [hb] at hgc
          simp only [Option.map_some', Option.some.injEq] at hgc
          subst hgc
          rw [flattenOne_eq] at hin
          rcases List.mem_cons.mp hin with hin | hin
          · have hrc : r = c := by rw [← hnote, hin]; rfl
            subst hrc
            exact ReachFrom.here hcn hcp
          · have hsub : ReachFrom notes (some c.id) r :=
              (ih (some c.id) (d + 1) cs hb r).mp ⟨it, hin, hnote⟩
            exact ReachFrom.deeper hcn hcp hsub
      · intro hr
        cases hr with
        | here hrn hrp =>
          have hcf : r ∈ notes.filter (fun n => n.parentId == pid) :=
            filter_children_mem.mpr ⟨hrn, hrp⟩
          rcases mapOpt_forall_some hm hcf with ⟨t, ht, hgt⟩
          cases hb : buildTreeF notes f (some r.id) (d + 1) with
          | none => rw [hb] at hgt; simp at hgt
          | some cs =>
            rw [hb] at hgt
            simp only [Option.map_some', Option.some.injEq] at hgt
            subst hgt
            refine ⟨NoteTreeItem.mk r d cs, ?_, rfl⟩
            exact mem_flattenList.mpr
              ⟨NoteTreeItem.mk r d cs, mem_sortDesc.mpr ht,
                by rw [flattenOne_eq]; exact List.mem_cons_self _ _⟩
        | deeper hcn hcp hsub =>
          rename_i c
          have hcf : c ∈ notes.filter (fun n => n.parentId == pid) :=
            filter_children_mem.mpr ⟨hcn, hcp⟩
          rcases mapOpt_forall_some hm hcf with ⟨t, ht, hgt⟩
          cases hb : buildTreeF notes f (some c.id) (d + 1) with
          | none => rw [hb] at hgt; simp at hgt
          | some cs =>
            rw [hb] at hgt
            simp only [Option.map_some', Option.some.injEq] at hgt
            subst hgt
            rcases (ih (some c.id) (d + 1) cs hb r).mpr hsub with ⟨it, hit, hnote⟩
            refine ⟨it, ?_, hnote⟩
            exact mem_flattenList.mpr
              ⟨NoteTreeItem.mk c d cs, mem_sortDesc.mpr ht,
                by rw [flattenOne_eq]; exact List.mem_cons_of_mem _ hit⟩

theorem depth_buildTreeF {notes : List Note} :
    ∀ (f : Nat) (pid : Option String) (d : Nat) (ts : List NoteTreeItem),
      buildTreeF notes f pid d = some ts →
      (∀ it ∈ ts, it.depth = d) ∧
      (∀ it ∈ flattenList ts, ∀ c ∈ it.children, c.depth = it.depth + 1) := by
  intro f
  induction f with
  | zero =>
    intro pid d ts h
    simp [buildTreeF] at h
  | succ f ih =>
    intro pid d ts h
    simp only [buildTreeF] at h
    cases hm : mapOpt
        (fun note => (buildTreeF notes f (some note.id) (d + 1)).map
          (fun cs => NoteTreeItem.mk note d cs))
        (notes.filter (fun n => n.parentId == pid)) with
    | none => rw [hm] at h; simp at h
    | some items =>
      rw [hm] at h
      simp only [Option.map_some', Option.some.injEq] at h
      subst h
      have hshape : ∀ t ∈ items, ∃ (c : Note) (cs : List NoteTreeItem),
          t = NoteTreeItem.mk c d cs ∧ buildTreeF notes f (some c.id) (d + 1) = some cs := by
        intro t ht
        rcases mapOpt_mem_some hm ht with ⟨c, _, hgc⟩
        cases hb : buildTreeF notes f (some c.id) (d + 1) with
        | none => rw [hb] at hgc; simp at hgc
        | some cs =>
          rw [hb] at hgc
          simp only [Option.map_some', Option.some.injEq] at hgc
          exact ⟨c, cs, hgc.symm, hb⟩
      constructor
      · intro it hit
        rcases hshape it (mem_sortDesc.mp hit) with ⟨c, cs, hteq, _⟩
        rw [hteq]
        rfl
      · intro it hit c hc
        rcases mem_flattenList.mp hit with ⟨t, ht, hin⟩
        rcases hshape t (mem_sortDesc.mp ht) with ⟨c0, cs, hteq, hb⟩
        subst hteq
        rw [flattenOne_eq] at hin
        rcases List.mem_cons.mp hin with hin | hin
        · subst hin
          have := (ih (some c0.id) (d + 1) cs hb).1 c hc
          rw [this]
          rfl
        · exact (ih (some c0.id) (d + 1) cs hb).2 it hin c hc

theorem reachFrom_mem {notes : List Note} {pid : Option String} {r : Note}
    (h : ReachFrom notes pid r) : r ∈ notes := by
  induction h with
  | here hrn _ => exact hrn
  | deeper _ _ _ ih => exact ih

theorem reachFrom_parent {notes : List Note} {pid : Option String} {r : Note}
    (h : ReachFrom notes pid r) :
    r.parentId = pid ∨ ∃ p ∈ notes, r.parentId = some p.id := by
  induction h with
  | here _ hrp => exact Or.inl hrp
  | deeper hcn _ _ ih =>
    rcases ih with hp | hp
    · exact Or.inr ⟨_, hcn, hp⟩
    · exact Or.inr hp

theorem mem_getDescendantsF {notes : List Note} :
    ∀ (f : Nat) (root : String) (l : List String),
      getDescendantsF notes f root = some l →
      ∀ x, x ∈ l ↔ InClosure notes root x := by
  intro f
  induction f with
  | zero =>
    intro root l h
    simp [getDescendantsF] at h
  | succ f ih =>
    intro root l h x
    simp only [getDescendantsF] at h
    cases hm : mapOpt (fun c => getDescendantsF notes f c.id)
        (notes.filter (fun n => n.parentId == some root)) with
    | none => rw [hm] at h; simp at h
    | some ls =>
      rw [hm] at h
      simp only [Option.map_some', Option.some.injEq] at h
      subst h
      constructor
      · intro hx
        rcases List.mem_cons.mp hx with hx | hx
        · exact hx ▸ InClosure.refl
        · rcases mem_joinAll.mp hx with ⟨lc, hlc, hxl⟩
          rcases mapOpt_mem_some hm hlc with ⟨c, hc, hgc⟩
          rcases filter_children_mem.mp hc with ⟨hcn, hcp⟩
          exact InClosure.step hcn hcp ((ih c.id lc hgc x).mp hxl)
      · intro hx
        cases hx with
        | refl => exact List.mem_cons_self _ _
        | step hcn hcp hsub =>
          rename_i c
          have hcf : c ∈ notes.filter (fun n => n.parentId == some root) :=
            filter_children_mem.mpr ⟨hcn, hcp⟩
          rcases mapOpt_forall_some hm hcf with ⟨lc, hlc, hgc⟩
          exact List.mem_cons_of_mem _
            (mem_joinAll.mpr ⟨lc, hlc, (ih c.id lc hgc x).mpr hsub⟩)

theorem cyc_desc_none :
    ∀ f, getDescendantsF cycNotes f idA = none ∧ getDescendantsF cycNotes f idB = none := by
  intro f
  induction f with
  | zero => exact ⟨rfl, rfl⟩
  | succ f ih =>
    have hfa : cycNotes.filter (fun n => n.parentId == some idA) = [cycB] := by decide
    have hfb : cycNotes.filter (fun n => n.parentId == some idB) = [cycA] := by decide
    have hcb : getDescendantsF cycNotes f cycB.id = none := ih.2
    have hca : getDescendantsF cycNotes f cycA.id = none := ih.1
    constructor
    · simp only [getDescendantsF, hfa]
      simp [mapOpt, hcb]
    · simp only [getDescendantsF, hfb]
      simp [mapOpt, hca]

/-- C2: the spec requires the descendant-closure computation behind
`delete(id)` to terminate on every collection, cycles included, via a
visited-set guard or recursion bound.  The source `getDescendants` has
no such guard: on the cyclic collection a → b → a, no finite recursion
depth completes — the fuel-bounded embedding returns `none` at every
fuel, so `delete(a)` never produces a result. -/
theorem c2_descendant_closure_cycle_diverges :
    ∀ fuel, getDescendantsF cycNotes fuel idA = none ∧
      handleDeleteNote cycNotes none idA fuel = none := by
  intro fuel
  have h := (cyc_desc_none fuel).1
  exact ⟨h, by simp [handleDeleteNote, h]⟩

/-- C1: whenever the delete recursion completes (fuel suffices), the
removed ids are exactly the descendant closure of the deleted id: a
record survives iff it was present and its id lies outside the closure,
and a (truthy) selection is cleared iff its id was removed. -/
theorem c1_delete_removes_exactly_closure
    (notes : List Note) (sel : Option String) (id : String) (fuel : Nat)
    (newNotes : List Note) (newSel : Option String)
    (h : handleDeleteNote notes sel id fuel = some (newNotes, newSel)) :
    (∀ n : Note, n ∈ newNotes ↔ (n ∈ notes ∧ ¬ InClosure notes id n.id)) ∧
    (sel = none → newSel = none) ∧
    (∀ s, sel = some s → s ≠ "" →
      ((InClosure notes id s → newSel = none) ∧
       (¬ InClosure notes id s → newSel = some s))) := by
  cases hg : getDescendantsF notes fuel id with
  | none =>
    rw [handleDeleteNote, hg] at h
    simp at h
  | some closure =>
    rw [handleDeleteNote, hg] at h
    simp only [Option.map_some', Option.some.injEq, Prod.mk.injEq] at h
    obtain ⟨h1, h2⟩ := h
    have hmem := mem_getDescendantsF fuel id closure hg
    refine ⟨?_, ?_, ?_⟩
    · intro n
      rw [← h1, List.mem_filter]
      constructor
      · rintro ⟨hn, hb⟩
        rw [Bool.not_eq_true'] at hb
        refine ⟨hn, fun hcl => ?_⟩
        have hct := contains_iff.mpr ((hmem n.id).mpr hcl)
        rw [hb] at hct
        exact Bool.noConfusion hct
      · rintro ⟨hn, hcl⟩
        refine ⟨hn, ?_⟩
        rw [Bool.not_eq_true']
        cases hcb : closure.contains n.id with
        | false => rfl
        | true => exact absurd ((hmem n.id).mp (contains_iff.mp hcb)) hcl
    · intro hsel
      rw [hsel] at h2
      exact h2.symm
    · intro s hsel hs
      rw [hsel] at h2
      simp only [hs, if_false] at h2
      constructor
      · intro hcl
        have hct : closure.contains s = true := contains_iff.mpr ((hmem s).mpr hcl)
        rw [hct] at h2
        simpa using h2.symm
      · intro hcl
        have hct : closure.contains s = false := by
          cases hcb : closure.contains s with
          | false => rfl
          | true => exact absurd ((hmem s).mp (contains_iff.mp hcb)) hcl
        rw [hct] at h2
        simpa using h2.symm

/-- Witness for C1: deleting root `1` from `exDel` removes `1` and its
child `2`, keeps the unrelated root `3`, and clears the selection that
pointed at `2`. -/
theorem c1_witness :
    (∀ n : Note, n ∈ exDelAfter ↔ (n ∈ exDel ∧ ¬ InClosure exDel idOne n.id)) ∧
    ((some idTwo : Option String) = none → (none : Option String) = none) ∧
    (∀ s, (some idTwo : Option String) = some s → s ≠ "" →
      ((InClosure exDel idOne s → (none : Option String) = none) ∧
       (¬ InClosure exDel idOne s → (none : Option String) = some s))) :=
  c1_delete_removes_exactly_closure exDel (some idTwo) idOne 4 exDelAfter none (by decide)

/-- C5: on any collection whose parent graph is acyclic (orphaned
references allowed), materialization completes without crashing and its
output contains exactly the records reachable from some root along
`parentId` edges: orphans appear at no level, and the empty collection
yields the empty forest. -/
theorem c5_materialize_exactly_reachable
    (notes : List Note) (hA : Acyclic notes) :
    ∃ ts, materialize notes = some ts ∧
      (∀ r : Note, (∃ it ∈ flattenList ts, it.note = r) ↔ ReachFrom notes none r) ∧
      (notes = [] → ts = []) ∧
      (∀ r ∈ notes, r.parentId ≠ none → (∀ p ∈ notes, r.parentId ≠ some p.id) →
        ∀ it ∈ flattenList ts, it.note ≠ r) := by
  rcases Option.isSome_iff_exists.mp (materialize_isSome hA) with ⟨ts, hts⟩
  refine ⟨ts, hts, mem_buildTreeF _ none 0 ts hts, ?_, ?_⟩
  · intro hempty
    subst hempty
    have hrfl : materialize ([] : List Note) = some [] := rfl
    rw [hrfl] at hts
    exact ((Option.some.injEq _ _).mp hts).symm
  · intro r hr hpne hporph it hit heq
    have hreach := (mem_buildTreeF _ none 0 ts hts r).mp ⟨it, hit, heq⟩
    rcases reachFrom_parent hreach with hp | ⟨p, hpn, hpp⟩
    · exact hpne hp
    · exact hporph p hpn hpp

/-- Witness for C5: on the collection with root `1`, child `2` and the
orphan `9` (parent `zz` missing), materialization succeeds and contains
exactly the reachable records. -/
theorem c5_witness :
    ∃ ts, materialize exOrb = some ts ∧
      (∀ r : Note, (∃ it ∈ flattenList ts, it.note = r) ↔ ReachFrom exOrb none r) ∧
      (exOrb = [] → ts = []) ∧
      (∀ r ∈ exOrb, r.parentId ≠ none → (∀ p ∈ exOrb, r.parentId ≠ some p.id) →
        ∀ it ∈ flattenList ts, it.note ≠ r) :=
  c5_materialize_exactly_reachable exOrb (hasRank_acyclic exOrb exMu (by decide))

/-- C9: in the materialized forest, every root item has depth 0 and
every item appearing among some item's children has depth one greater
than its parent. -/
theorem c9_depth_annotations (notes : List Note) (ts : List NoteTreeItem)
    (h : materialize notes = some ts) :
    (∀ it ∈ ts, it.depth = 0) ∧
    (∀ it ∈ flattenList ts, ∀ c ∈ it.children, c.depth = it.depth + 1) :=
  depth_buildTreeF _ none 0 ts h

/-- Witness for C9: the two-record collection `exM` materializes to one
root of depth 0 carrying one child of depth 1. -/
theorem c9_witness :
    (∀ it ∈ exMTree, it.depth = 0) ∧
    (∀ it ∈ flattenList exMTree, ∀ c ∈ it.children, c.depth = it.depth + 1) :=
  c9_depth_annotations exM exMTree (by rfl)

theorem forall2_map_self {P : α → β → Prop} {l : List α} {f : α → β} :
    List.Forall₂ P l (l.map f) ↔ ∀ a ∈ l, P a (f a) := by
  induction l with
  | nil => simp
  | cons x l ih => simp [List.forall₂_cons, ih]

theorem map_id_of {f : α → α} : ∀ {l : List α}, (∀ a ∈ l, f a = a) → l.map f = l := by
  intro l
  induction l with
  | nil => intro _; rfl
  | cons x l ih =>
    intro h
    simp only [List.map_cons, h x (by simp)]
    rw [ih (fun a ha => h a (by simp [ha]))]

/-- C7: assuming a clock that has advanced past the target record's last
update, `update(id, u)` rewrites every matching record according to the
frame property — all other records and all unmentioned fields are left
unchanged, `updatedAt` strictly increases — and is a no-op when no
record carries `id`. -/
theorem c7_update_frame
    (notes : List Note) (id : String) (u : PartialNote) (now : Nat)
    (hnow : ∀ n ∈ notes, n.id = id → n.updatedAt < now) :
    List.Forall₂ (UpdateFrame id u now) notes (handleUpdateNote notes id u now) ∧
    ((∀ n ∈ notes, n.id ≠ id) → handleUpdateNote notes id u now = notes) := by
  constructor
  · rw [handleUpdateNote, forall2_map_self]
    intro n hn
    by_cases hid : n.id = id
    · unfold UpdateFrame
      rw [if_pos hid]
      refine ⟨fun hne => absurd hid hne, fun _ => ?_⟩
      refine ⟨rfl, hnow n hn hid, ?_, ?_, ?_, ?_, ?_, ?_, ?_, ?_, ?_, ?_, ?_, ?_⟩ <;>
        first
          | (intro h; simp [mergeNote, h])
          | (intro v hv; simp [mergeNote, hv])
    · unfold UpdateFrame
      rw [if_neg hid]
      exact ⟨fun _ => rfl, fun h => absurd h hid⟩
  · intro hall
    rw [handleUpdateNote]
    exact map_id_of (fun n hn => by simp [hall n hn])

/-- Witness for C7: updating the title of record `1` in `exDel` at time
100 satisfies the frame property, record by record. -/
theorem c7_witness :
    List.Forall₂ (UpdateFrame idOne uTitle 100) exDel
      (handleUpdateNote exDel idOne uTitle 100) ∧
    ((∀ n ∈ exDel, n.id ≠ idOne) → handleUpdateNote exDel idOne uTitle 100 = exDel) :=
  c7_update_frame exDel idOne uTitle 100 (by decide)

theorem map_eq_of {f g : α → β} : ∀ {l : List α}, (∀ a ∈ l, f a = g a) → l.map f = l.map g := by
  intro l
  induction l with
  | nil => intro _; rfl
  | cons x l ih =>
    intro h
    simp only [List.map_cons]
    rw [h x (by simp), ih (fun a ha => h a (by simp [ha]))]

/-- C8 counterexample: `update` with a partial that carries an `id`
field rewrites the matched record's id in place — the one-record
collection `[noteA]` still has one record afterwards, but its id has
changed from `a` to `b`, so ids are not immutable under update with
arbitrary partial fields. -/
theorem c8_counterexample :
    (handleUpdateNote [noteA] idA uId 5).length = 1 ∧
    (handleUpdateNote [noteA] idA uId 5).map Note.id = [idB] ∧
    [noteA].map Note.id = [idA] ∧ idA ≠ idB := by decide

/-- C8 (amended): ids are immutable under `create`, `toggleExpand`,
`delete`, and under `update` whenever the partial does not mention
`id`: update and toggle preserve the id sequence position by position,
create prepends the fresh id in front of the unchanged id sequence, and
every record surviving a delete is one of the original records. -/
theorem c8_id_immutable_amended
    (notes : List Note) (id : String) (u : PartialNote) (now : Nat)
    (sel : Option String) (pid : Option String) (newId : String) (fuel : Nat)
    (hu : u.id = none) :
    ((handleUpdateNote notes id u now).map Note.id = notes.map Note.id) ∧
    ((handleToggleExpand notes id).map Note.id = notes.map Note.id) ∧
    ((handleCreateNote notes pid newId now).1.map Note.id = newId :: notes.map Note.id) ∧
    (∀ newNotes newSel, handleDeleteNote notes sel id fuel = some (newNotes, newSel) →
      ∀ n ∈ newNotes, n ∈ notes) := by
  refine ⟨?_, ?_, ?_, ?_⟩
  · rw [handleUpdateNote, List.map_map]
    apply map_eq_of
    intro n _
    by_cases hid : n.id = id
    · simp [Function.comp, hid, mergeNote, hu]
    · simp [Function.comp, hid]
  · rw [handleToggleExpand, List.map_map]
    apply map_eq_of
    intro n _
    by_cases hid : n.id = id
    · simp [Function.comp, hid]
    · simp [Function.comp, hid]
  · simp only [handleCreateNote]
    cases pid with
    | none => simp
    | some p =>
      by_cases hp : p = ""
      · simp [hp]
      · simp only [hp, if_false, List.map_map, List.map_cons]
        have hmap : notes.map
            (Note.id ∘ fun n => if n.id = p then { n with isExpanded := true } else n)
              = notes.map Note.id := by
          apply map_eq_of
          intro n _
          by_cases hid : n.id = p
          · simp [Function.comp, hid]
          · simp [Function.comp, hid]
        rw [ite_self, hmap]
  · intro newNotes newSel h n hn
    cases hg : getDescendantsF notes fuel id with
    | none => rw [handleDeleteNote, hg] at h; simp at h
    | some closure =>
      rw [handleDeleteNote, hg] at h
      simp only [Option.map_some', Option.some.injEq, Prod.mk.injEq] at h
      rw [← h.1] at hn
      exact (List.mem_filter.mp hn).1

/-- Witness for C8 (amended): on `exDel`, a title update, a toggle, a
child creation and the delete of root `1` all preserve the surviving
ids. -/
theorem c8_witness :
    ((handleUpdateNote exDel idOne uTitle 100).map Note.id = exDel.map Note.id) ∧
    ((handleToggleExpand exDel idOne).map Note.id = exDel.map Note.id) ∧
    ((handleCreateNote exDel (some idOne) idNine 100).1.map Note.id
      = idNine :: exDel.map Note.id) ∧
    (∀ newNotes newSel, handleDeleteNote exDel (some idTwo) idOne 4 = some (newNotes, newSel) →
      ∀ n ∈ newNotes, n ∈ exDel) :=
  c8_id_immutable_amended exDel idOne uTitle 100 (some idTwo) (some idOne) idNine 4 (by rfl)

/-- C4: every `save` call writes the full collection to the local cache
as its first side effect, for every configuration and every remote
outcome — after `save` returns (successfully or not), the cache holds
exactly the records passed in, and the local write precedes any remote
attempt in the trace. -/
theorem c4_save_local_first (notes : List Note) (config : StorageConfig)
    (outcome : SaveOutcome) :
    (storageSave notes config outcome).cache = some notes ∧
    ∃ rest, (storageSave notes config outcome).events
      = SaveEvent.localWrite notes :: rest := by
  by_cases h : config.apiUrl = ""
  · simp [storageSave, h]
  · cases outcome <;> simp [storageSave, h]

/-- C3: with a remote endpoint configured and a local cache present,
a failed remote load does NOT fall back to the cache: `storage.load`
rethrows, so `initLoad` keeps the in-memory seed collection
(`INITIAL_NOTES`) and surfaces the offline warning, even though the
cache still holds `[noteX]`.  The claim says the in-memory collection
should equal the cached one. -/
theorem c3_load_failure_ignores_cache :
    initLoad (INITIAL_NOTES 0) none cfgX LoadOutcome.netError (some [noteX])
      = (INITIAL_NOTES 0, none, some loadFailMsg) ∧
    INITIAL_NOTES 0 ≠ [noteX] ∧
    (storageLoad cfgX LoadOutcome.netError (some [noteX])).cache = some [noteX] := by
  refine ⟨rfl, by decide, rfl⟩

/-- C6 counterexample: the adapter does not detect provider dialects.
The JSONBin-shaped endpoint (envelope dialect, provider-specific header,
PUT) receives exactly the same treatment as an arbitrary endpoint: a
POST with the generic `Authorization: Bearer` header, and an
envelope-wrapped (non-array) load response is rejected as an error
instead of being decoded. -/
theorem c6_counterexample :
    remoteRequestOf (storageSave [noteA] cfgJB (SaveOutcome.resp true))
      = some { url := cfgJB.apiUrl, method := methodPOST
               headers := [(hdrCT, hdrCTV), (hdrAuth, bearerStr ++ cfgJB.apiKey)]
               body := some [noteA] } ∧
    remoteRequestOf (storageSave [noteA] cfgOther (SaveOutcome.resp true))
      = some { url := cfgOther.apiUrl, method := methodPOST
               headers := [(hdrCT, hdrCTV), (hdrAuth, bearerStr ++ cfgOther.apiKey)]
               body := some [noteA] } ∧
    (storageLoad cfgJB (LoadOutcome.body Body.notArr) none).result
      = Except.error notArrayMsg := by
  refine ⟨by decide, by decide, rfl⟩

/-- C6 (amended): the adapter speaks a single dialect regardless of
endpoint shape — save is always a POST of the plain notes array, load
is always a GET, the only headers are `Content-Type` and (with a truthy
key) the generic `Authorization: Bearer` header, and any non-array
response body is rejected as an error. -/
theorem c6_single_dialect_amended
    (notes : List Note) (cfg : StorageConfig) (outcome : SaveOutcome)
    (lo : LoadOutcome) (cache : Option (List Note))
    (hurl : cfg.apiUrl ≠ "") :
    (∃ req, remoteRequestOf (storageSave notes cfg outcome) = some req ∧
      req.method = methodPOST ∧ req.url = cfg.apiUrl ∧ req.body = some notes ∧
      (∀ hv ∈ req.headers, hv.1 = hdrCT ∨ hv.1 = hdrAuth) ∧
      (cfg.apiKey ≠ "" → (hdrAuth, bearerStr ++ cfg.apiKey) ∈ req.headers)) ∧
    (∃ req, (storageLoad cfg lo cache).request = some req ∧
      req.method = methodGET ∧
      (∀ hv ∈ req.headers, hv.1 = hdrCT ∨ hv.1 = hdrAuth)) ∧
    (∃ msg, (storageLoad cfg (LoadOutcome.body Body.notArr) cache).result
      = Except.error msg) := by
  have hhead : ∀ hv ∈ buildHeaders cfg.apiKey, hv.1 = hdrCT ∨ hv.1 = hdrAuth := by
    intro hv hhv
    by_cases hk : cfg.apiKey = ""
    · simp only [buildHeaders, hk, if_true, List.mem_singleton] at hhv
      left
      rw [hhv]
    · simp only [buildHeaders, hk, if_false, List.mem_cons, List.mem_singleton,
        List.not_mem_nil, or_false] at hhv
      rcases hhv with h | h
      · left; rw [h]
      · right; rw [h]
  refine ⟨?_, ?_, ?_⟩
  · refine ⟨{ url := cfg.apiUrl, method := methodPOST
              headers := buildHeaders cfg.apiKey, body := some notes }, ?_, rfl, rfl, rfl,
            hhead, ?_⟩
    · cases outcome <;> simp [storageSave, hurl, remoteRequestOf, List.filterMap]
    · intro hk
      simp [buildHeaders, hk]
  · refine ⟨{ url := cfg.apiUrl, method := methodGET
              headers := buildHeaders cfg.apiKey, body := none }, ?_, rfl, hhead⟩
    cases lo with
    | netError => simp [storageLoad, hurl]
    | httpError code => simp [storageLoad, hurl]
    | body b => cases b <;> simp [storageLoad, hurl]
  · exact ⟨notArrayMsg, by simp [storageLoad, hurl]⟩

/-- Witness for C6 (amended): the single dialect at the JSONBin-shaped
endpoint. -/
theorem c6_witness :
    (∃ req, remoteRequestOf (storageSave [noteA] cfgJB (SaveOutcome.resp true)) = some req ∧
      req.method = methodPOST ∧ req.url = cfgJB.apiUrl ∧ req.body = some [noteA] ∧
      (∀ hv ∈ req.headers, hv.1 = hdrCT ∨ hv.1 = hdrAuth) ∧
      (cfgJB.apiKey ≠ "" → (hdrAuth, bearerStr ++ cfgJB.apiKey) ∈ req.headers)) ∧
    (∃ req, (storageLoad cfgJB LoadOutcome.netError none).request = some req ∧
      req.method = methodGET ∧
      (∀ hv ∈ req.headers, hv.1 = hdrCT ∨ hv.1 = hdrAuth)) ∧
    (∃ msg, (storageLoad cfgJB (LoadOutcome.body Body.notArr) none).result
      = Except.error msg) :=
  c6_single_dialect_amended [noteA] cfgJB (SaveOutcome.resp true) LoadOutcome.netError none
    (by decide)

/-- C10: the import gateway accepts exactly the inputs that decode to a
non-empty array whose first element carries a truthy id; on acceptance
and confirmation it atomically replaces the collection with the
records imported and selects the first, and in every rejected case it
reports an error and leaves the collection and selection untouched. -/
theorem c10_import_validation
    (notes : List Note) (sel : Option String) (input : ImportInput) (confirmed : Bool) :
    (input = ImportInput.parseError →
      handleImport notes sel input confirmed = (notes, sel, true)) ∧
    (input = ImportInput.notArray →
      handleImport notes sel input confirmed = (notes, sel, true)) ∧
    (input = ImportInput.array [] →
      handleImport notes sel input confirmed = (notes, sel, true)) ∧
    (∀ e rest, input = ImportInput.array (e :: rest) → e.id = "" →
      handleImport notes sel input confirmed = (notes, sel, true)) ∧
    (∀ e rest, input = ImportInput.array (e :: rest) → e.id ≠ "" → confirmed = true →
      handleImport notes sel input confirmed = (e :: rest, some e.id, false)) ∧
    (∀ e rest, input = ImportInput.array (e :: rest) → e.id ≠ "" → confirmed = false →
      handleImport notes sel input confirmed = (notes, sel, false)) ∧
    ((handleImport notes sel input confirmed).1 ≠ notes →
      ∃ e rest, input = ImportInput.array (e :: rest) ∧ e.id ≠ "" ∧ confirmed = true ∧
        (handleImport notes sel input confirmed).1 = e :: rest ∧
        (handleImport notes sel input confirmed).2.1 = some e.id) := by
  refine ⟨?_, ?_, ?_, ?_, ?_, ?_, ?_⟩
  · intro h; subst h; rfl
  · intro h; subst h; rfl
  · intro h; subst h; rfl
  · intro e rest h he
    subst h
    simp [handleImport, he]
  · intro e rest h he hc
    subst h
    subst hc
    simp [handleImport, he]
  · intro e rest h he hc
    subst h
    subst hc
    simp [handleImport, he]
  · intro hne
    cases input with
    | parseError => exact absurd rfl hne
    | notArray => exact absurd rfl hne
    | array elems =>
      cases elems with
      | nil => exact absurd rfl hne
      | cons e rest =>
        by_cases he : e.id = ""
        · have hfst :
              (handleImport notes sel (ImportInput.array (e :: rest)) confirmed).1 = notes := by
            simp [handleImport, he]
          exact absurd hfst hne
        · cases confirmed with
          | false =>
            have hfst :
                (handleImport notes sel (ImportInput.array (e :: rest)) false).1 = notes := by
              simp [handleImport, he]
            exact absurd hfst hne
          | true =>
            refine ⟨e, rest, rfl, he, rfl, ?_, ?_⟩
            · simp [handleImport, he]
            · simp [handleImport, he]

/-- Witness for C10: a non-array input leaves `exDel` untouched with an
error, and a valid one-record import replaces the collection and
selects the imported record. -/
theorem c10_witness :
    handleImport exDel (some idOne) ImportInput.notArray true = (exDel, some idOne, true) ∧
    handleImport exDel (some idOne) (ImportInput.array [noteA]) true
      = ([noteA], some idA, false) := by
  refine ⟨?_, ?_⟩
  · exact (c10_import_validation exDel (some idOne) ImportInput.notArray true).2.1 rfl
  · exact (c10_import_validation exDel (some idOne)
      (ImportInput.array [noteA]) true).2.2.2.2.1 noteA [] rfl (by decide) rfl

end Texnote
